import Mathlib

/-!
Verification of the cstar-migrate migration engine against its specification.

This file gives a shallow embedding, in Lean 4, of the core of the
`cstarmigrate` package:

* `cstarmigrate/cql.py` — the `CQLSplitter` statement splitter, a regex
  scanner (`re.Scanner`) followed by a token-accumulation loop;
* `cstarmigrate/migrator.py` — the verifier (`Migrator._verify_migrations`),
  the CAS-guarded advancer (`Migrator._create_version`,
  `Migrator._apply_migration`, the loop of `Migrator._advance`,
  `Migrator._cleanup_previous_versions`) and the target-version resolver
  (`Migrator._get_target_version`).

Python strings are embedded as `List Char` / `String`, uuids and versions as
`Nat`, checksums as `List Nat` (byte lists), and the remote version table as a
`List VersionRecord` together with the conditional (compare-and-set) write
primitives that the Cassandra driver provides.  Fallible code returns
`Except`.  Concurrency is modelled by a step relation on table states.
-/

/-! ## The CQL statement splitter (`cstarmigrate/cql.py`)

The Python code tokenizes the script with an `re.Scanner` whose patterns are
tried in order at each position:

1. `(--|//).*?$`              (line comment, `MULTILINE`: stops before `\n`)
2. `/\*.+?\*/`                (block comment, lazy, at least one inner char)
3. `"(?:[^"\\]|\\.)*"`        (double-quoted string with backslash escapes)
4. `'(?:[^'\\]|\\.)*'`        (single-quoted string with backslash escapes)
5. `\$\$(?:[^\$\\]|\\.)*\$\$` (dollar-quoted string)
6. `;`                        (statement separator)
7. `\s+`                      (whitespace run)
8. `.`                        (any other single character)

Each alternation below is deterministic (the character classes are disjoint
from the delimiters, and a backslash can only be consumed by an escape pair),
so the lazy/greedy regex matching is faithfully reproduced by the
first-match-wins recursions below.  `\s` is modelled by the ASCII whitespace
class (the inputs quantified over in the theorems stay within ASCII).
-/

/-- Token classes of the scanner, mirroring `LINE_COMMENT`, `BLOCK_COMMENT`,
`STRING`, `SEMICOLON`, `WHITESPACE`, `OTHER` in `cql.py`.  Each token carries
the exact matched text (`Token.token` in the source). -/
inductive Tok where
  | lineComment (s : List Char)
  | blockComment (s : List Char)
  | str (s : List Char)
  | semicolon
  | whitespace (s : List Char)
  | other (c : Char)
deriving DecidableEq, Repr

/-- ASCII model of the Python regex class `\s`. -/
def isPySpace (c : Char) : Bool :=
  c = ' ' || c = '\t' || c = '\n' || c = '\r' || c = '\x0b' || c = '\x0c'

/-- Locate the first `*/` in the input: the lazy tail `.+?\*/` of the
block-comment pattern consumes exactly up to (and including) that first
occurrence.  Returns the consumed content and the rest after `*/`. -/
def findClose : List Char → Option (List Char × List Char)
  | [] => none
  | c :: rest =>
      if c = '*' ∧ rest.head? = some '/' then some ([], rest.tail)
      else (findClose rest).map (fun p => (c :: p.1, p.2))

/-- Body of a block comment after the opening `/*`: pattern `.+?\*/` — at
least one character, then the first `*/`. -/
def blockBody : List Char → Option (List Char × List Char)
  | [] => none
  | c :: rest => (findClose rest).map (fun p => (c :: p.1, p.2))

/-- Body of a quoted string after the opening quote `q`: pattern
`(?:[^q\\]|\\.)*q`.  Returns the consumed text (closing quote included) and
the rest. -/
def strBody (q : Char) : List Char → Option (List Char × List Char)
  | [] => none
  | [c] => if c = q then some ([c], []) else none
  | c :: d :: rest =>
      if c = q then some ([c], d :: rest)
      else if c = '\\' then (strBody q rest).map (fun p => (c :: d :: p.1, p.2))
      else (strBody q (d :: rest)).map (fun p => (c :: p.1, p.2))

/-- Body of a dollar-quoted string after the opening `$$`: pattern
`(?:[^$\\]|\\.)*\$\$`. -/
def dollarBody : List Char → Option (List Char × List Char)
  | [] => none
  | [_] => none
  | c :: d :: rest =>
      if c = '$' then
        if d = '$' then some (['$', '$'], rest) else none
      else if c = '\\' then (dollarBody rest).map (fun p => (c :: d :: p.1, p.2))
      else (dollarBody (d :: rest)).map (fun p => (c :: p.1, p.2))

/-- One scanner step at a position whose first character is `c` and whose
remaining input is `cs`: tries the eight patterns in the order of
`CQLSplitter.scanner` and returns the token together with the unconsumed
rest.  A pattern that fails to match falls through; the final `.` pattern
always matches a single character. -/
def nextToken (c : Char) (cs : List Char) : Tok × List Char :=
  if (c = '-' ∧ cs.head? = some '-') ∨ (c = '/' ∧ cs.head? = some '/') then
    (Tok.lineComment (c :: cs.takeWhile (fun ch => !(ch = '\n'))),
     cs.dropWhile (fun ch => !(ch = '\n')))
  else if c = '/' ∧ cs.head? = some '*' then
    match blockBody cs.tail with
    | some p => (Tok.blockComment ('/' :: '*' :: p.1), p.2)
    | none => (Tok.other c, cs)
  else if c = '"' then
    match strBody '"' cs with
    | some p => (Tok.str (c :: p.1), p.2)
    | none => (Tok.other c, cs)
  else if c = '\'' then
    match strBody '\'' cs with
    | some p => (Tok.str (c :: p.1), p.2)
    | none => (Tok.other c, cs)
  else if c = '$' ∧ cs.head? = some '$' then
    match dollarBody cs.tail with
    | some p => (Tok.str ('$' :: '$' :: p.1), p.2)
    | none => (Tok.other c, cs)
  else if c = ';' then (Tok.semicolon, cs)
  else if isPySpace c then
    (Tok.whitespace (c :: cs.takeWhile isPySpace), cs.dropWhile isPySpace)
  else (Tok.other c, cs)

lemma length_dropWhile_le' (p : Char → Bool) :
    ∀ l : List Char, (l.dropWhile p).length ≤ l.length := by
  intro l
  induction l with
  | nil => simp [List.dropWhile]
  | cons c cs ih =>
      by_cases h : p c
      · simp [List.dropWhile, h]
        omega
      · simp [List.dropWhile, h]

lemma findClose_length :
    ∀ l p, findClose l = some p → p.2.length ≤ l.length := by
  intro l
  induction l with
  | nil => intro p h; simp [findClose] at h
  | cons c cs ih =>
      intro p h
      simp only [findClose] at h
      split at h
      · injection h with h'
        subst h'
        have : cs.tail.length ≤ cs.length := by cases cs <;> simp
        simpa using Nat.le_succ_of_le this
      · rw [Option.map_eq_some'] at h
        obtain ⟨a, hfc, rfl⟩ := h
        have := ih a hfc
        simpa using Nat.le_succ_of_le this

lemma blockBody_length :
    ∀ l p, blockBody l = some p → p.2.length ≤ l.length := by
  intro l p h
  cases l with
  | nil => simp [blockBody] at h
  | cons c cs =>
      simp only [blockBody] at h
      rw [Option.map_eq_some'] at h
      obtain ⟨a, hfc, rfl⟩ := h
      have := findClose_length cs a hfc
      simpa using Nat.le_succ_of_le this

lemma strBody_length (q : Char) :
    ∀ l p, strBody q l = some p → p.2.length ≤ l.length := by
  have main : ∀ n l p, l.length ≤ n → strBody q l = some p → p.2.length ≤ l.length := by
    intro n
    induction n with
    | zero =>
        intro l p hl h
        have : l = [] := by
          cases l
          · rfl
          · simp at hl
        subst this
        simp [strBody] at h
    | succ n ih =>
        intro l p hl h
        cases l with
        | nil => simp [strBody] at h
        | cons c cs =>
            cases cs with
            | nil =>
                simp only [strBody] at h
                split at h
                · injection h with h'
                  subst h'
                  simp
                · simp at h
            | cons d rest =>
                simp only [strBody] at h
                split at h
                · injection h with h'
                  subst h'
                  simp
                · split at h
                  · rw [Option.map_eq_some'] at h
                    obtain ⟨a, hrec, rfl⟩ := h
                    have hlen : rest.length ≤ n := by
                      simp at hl
                      omega
                    have := ih rest a hlen hrec
                    simp
                    omega
                  · rw [Option.map_eq_some'] at h
                    obtain ⟨a, hrec, rfl⟩ := h
                    have hlen : (d :: rest).length ≤ n := by
                      simp at hl ⊢
                      omega
                    have := ih (d :: rest) a hlen hrec
                    simp [List.length_cons] at this ⊢
                    omega
  intro l p h
  exact main l.length l p (le_refl _) h

lemma dollarBody_length :
    ∀ l p, dollarBody l = some p → p.2.length ≤ l.length := by
  have main : ∀ n l p, l.length ≤ n → dollarBody l = some p → p.2.length ≤ l.length := by
    intro n
    induction n with
    | zero =>
        intro l p hl h
        have : l = [] := by
          cases l
          · rfl
          · simp at hl
        subst this
        simp [dollarBody] at h
    | succ n ih =>
        intro l p hl h
        cases l with
        | nil => simp [dollarBody] at h
        | cons c cs =>
            cases cs with
            | nil => simp [dollarBody] at h
            | cons d rest =>
                simp only [dollarBody] at h
                split at h
                · split at h
                  · injection h with h'
                    subst h'
                    simp
                    omega
                  · simp at h
                · split at h
                  · rw [Option.map_eq_some'] at h
                    obtain ⟨a, hrec, rfl⟩ := h
                    have hlen : rest.length ≤ n := by
                      simp at hl
                      omega
                    have := ih rest a hlen hrec
                    simp
                    omega
                  · rw [Option.map_eq_some'] at h
                    obtain ⟨a, hrec, rfl⟩ := h
                    have hlen : (d :: rest).length ≤ n := by
                      simp at hl ⊢
                      omega
                    have := ih (d :: rest) a hlen hrec
                    simp [List.length_cons] at this ⊢
                    omega
  intro l p h
  exact main l.length l p (le_refl _) h

lemma nextToken_length (c : Char) (cs : List Char) :
    ((nextToken c cs).2).length ≤ cs.length := by
  unfold nextToken
  split
  · exact length_dropWhile_le' _ cs
  · split
    · split
      · rename_i p heq
        have h1 := blockBody_length cs.tail p heq
        have h2 : cs.tail.length ≤ cs.length := by cases cs <;> simp
        simp only []
        omega
      · simp
    · split
      · split
        · rename_i p heq
          exact strBody_length '"' cs p heq
        · simp
      · split
        · split
          · rename_i p heq
            exact strBody_length '\'' cs p heq
          · simp
        · split
          · split
            · rename_i p heq
              have h1 := dollarBody_length cs.tail p heq
              have h2 : cs.tail.length ≤ cs.length := by cases cs <;> simp
              simp only []
              omega
            · simp
          · split
            · simp
            · split
              · exact length_dropWhile_le' _ cs
              · simp

/-- Fuel-driven scan loop: one `nextToken` step per iteration.  The fuel is
only a termination device; `l.length` steps always suffice because every
step consumes at least the head character. -/
def scanFuel : Nat → List Char → List Tok
  | 0, _ => []
  | _ + 1, [] => []
  | fuel + 1, c :: cs =>
      (nextToken c cs).1 :: scanFuel fuel (nextToken c cs).2

/-- The scanner: `CQLSplitter.scanner().scan(query)` — the full token list of
the input (the final `.` pattern guarantees the scan consumes everything, so
the `match` remainder is always empty). -/
def scanTokens (l : List Char) : List Tok := scanFuel l.length l

lemma scanFuel_congr :
    ∀ f g l, l.length ≤ f → l.length ≤ g → scanFuel f l = scanFuel g l := by
  intro f
  induction f with
  | zero =>
      intro g l hf hg
      have : l = [] := by
        cases l
        · rfl
        · simp at hf
      subst this
      cases g <;> simp [scanFuel]
  | succ f ih =>
      intro g l hf hg
      cases l with
      | nil => cases g <;> simp [scanFuel]
      | cons c cs =>
          cases g with
          | zero => simp at hg
          | succ g =>
              simp only [scanFuel]
              have hr := nextToken_length c cs
              have h1 : (nextToken c cs).2.length ≤ f := by
                simp at hf
                omega
              have h2 : (nextToken c cs).2.length ≤ g := by
                simp at hg
                omega
              rw [ih g (nextToken c cs).2 h1 h2]

lemma scanTokens_nil : scanTokens [] = [] := rfl

lemma scanTokens_cons (c : Char) (cs : List Char) :
    scanTokens (c :: cs) = (nextToken c cs).1 :: scanTokens (nextToken c cs).2 := by
  show scanFuel (cs.length + 1) (c :: cs) = _
  simp only [scanFuel]
  rw [scanFuel_congr cs.length (nextToken c cs).2.length (nextToken c cs).2
        (nextToken_length c cs) (le_refl _)]
  rfl

/-- Python `str.strip()` on the accumulated statement (ASCII whitespace
model): drop leading and trailing whitespace. -/
def pyStrip (l : List Char) : List Char :=
  ((l.dropWhile isPySpace).reverse.dropWhile isPySpace).reverse

/-- The token-accumulation loop of `CQLSplitter.split`: line comments are
dropped; a semicolon flushes the (stripped) buffer when non-empty;
whitespace and block comments append a single space; strings and other
characters are appended verbatim.  At the end of input the non-empty
stripped remainder is emitted. -/
def splitLoop : List Tok → List Char → List (List Char) → List (List Char)
  | [], cur, acc =>
      let stm := pyStrip cur
      if stm.isEmpty then acc else acc ++ [stm]
  | t :: ts, cur, acc =>
      match t with
      | Tok.lineComment _ => splitLoop ts cur acc
      | Tok.semicolon =>
          let stm := pyStrip cur
          splitLoop ts [] (if stm.isEmpty then acc else acc ++ [stm])
      | Tok.whitespace _ => splitLoop ts (cur ++ [' ']) acc
      | Tok.blockComment _ => splitLoop ts (cur ++ [' ']) acc
      | Tok.str s => splitLoop ts (cur ++ s) acc
      | Tok.other ch => splitLoop ts (cur ++ [ch]) acc

namespace CQLSplitter

/-- Source `CQLSplitter.split`: split up content, and return individual statements
uncommented. -/
def split (query : String) : List String :=
  (splitLoop (scanTokens query.data) [] []).map (fun l => String.mk l)

end CQLSplitter

/-! ## Data model (`cstarmigrate/migrator.py` and the version table)

The version table schema is
`id uuid PRIMARY KEY, version int, name text, content text, checksum blob,
state text, applied_at timestamp`.  Uuids are embedded as `Nat` (fresh ids
are just ids not present in the table), checksums as byte lists, and
`applied_at` is omitted (it is never read by the verifier or advancer).
-/

/-- Modelled from the spec: the `MigrationState` enum of the absent
`cstarmigrate/migration.py` module — the per-row state machine of §4.2:
`(none) -> IN_PROGRESS -> (SUCCEEDED | SKIPPED | FAILED)`. -/
inductive MigrationState where
  | inProgress
  | succeeded
  | failed
  | skipped
deriving DecidableEq, Repr

/-- Modelled from the spec: the migration descriptor (`Migration`) of the
absent `cstarmigrate/migration.py` module — name, raw content, checksum of
the content, and kind (`is_python`); identity is the 1-indexed position in
the ordered descriptor sequence. -/
structure Migration where
  name : String
  content : String
  checksum : List Nat
  isPython : Bool
deriving DecidableEq, Repr

/-- One row of the version table (a `VersionRecord`). -/
structure VersionRecord where
  id : Nat
  version : Nat
  name : String
  content : String
  checksum : List Nat
  state : MigrationState
deriving DecidableEq, Repr

/-- The error taxonomy of `cstarmigrate/__init__.py`: `FailedMigration`,
`ConcurrentMigration`, `InconsistentState` and `UnknownMigration`, each with
the constructor arguments used in `migrator.py`. -/
inductive MigrationError where
  | failedMigration (version : Nat) (name : String)
  | concurrentMigration (version : Nat) (name : String)
  | inconsistentState (migration : Migration) (version : VersionRecord)
  | unknownMigration (version : Nat) (name : String)
deriving DecidableEq, Repr

/-- Python's `enumerate(xs, start)`. -/
def enumerateFrom (start : Nat) : List α → List (Nat × α)
  | [] => []
  | a :: as => (start, a) :: enumerateFrom (start + 1) as

/-- Stable insertion of a row into a version-sorted list (new element goes
before existing rows with an equal key, matching the stability of Python's
`sorted(..., key=lambda v: v.version)` when built by `foldr`). -/
def insertByVersion (r : VersionRecord) : List VersionRecord → List VersionRecord
  | [] => [r]
  | x :: xs =>
      if r.version ≤ x.version then r :: x :: xs else x :: insertByVersion r xs

/-- Python `sorted(cur_versions, key=lambda v: v.version)` — the stable sort at the
top of `_verify_migrations`. -/
def sortByVersion : List VersionRecord → List VersionRecord
  | [] => []
  | x :: xs => insertByVersion x (sortByVersion xs)

/-- The scanning loop of `Migrator._verify_migrations`, iterating over
`itertools.zip_longest(cur_versions, migrations)` (already sorted rows):

* row list exhausted (`if not version`) — break, return the tracked
  `last_version`;
* descriptor list exhausted (`if not migration`) — `UnknownMigration`;
* `state == FAILED` — break if `ignore_failed`, else `FailedMigration`
  (note: *before* `last_version` is updated);
* then `last_version = version.version`;
* `state == IN_PROGRESS` — break if `ignore_concurrent`, else
  `ConcurrentMigration` (note: *after* `last_version` is updated);
* content/name/checksum mismatch — `InconsistentState`. -/
def verifyLoop (igF igC : Bool) :
    List VersionRecord → List Migration → Option Nat → Except MigrationError (Option Nat)
  | [], _, last => .ok last
  | v :: _, [], _ => .error (.unknownMigration v.version v.name)
  | v :: vs, m :: ms, last =>
      if v.state = MigrationState.failed then
        if igF then .ok last else .error (.failedMigration v.version v.name)
      else if v.state = MigrationState.inProgress then
        if igC then .ok (some v.version)
        else .error (.concurrentMigration v.version v.name)
      else if v.content ≠ m.content ∨ v.name ≠ m.name ∨ v.checksum ≠ m.checksum then
        .error (.inconsistentState m v)
      else verifyLoop igF igC vs ms (some v.version)

/-- Source `Migrator._verify_migrations`: the database read (`SELECT * FROM` the
migrations table) is abstracted as the `curVersions` argument; the function
sorts it by version, runs the scanning loop, and computes the pending list
`enumerate(migrations[last_version:], (last_version or 0) + 1)` — with
Python falsiness: `not last_version` is true both for `None` and for `0`. -/
def verifyMigrations (migrations : List Migration) (curVersions : List VersionRecord)
    (ignoreFailed ignoreConcurrent : Bool) :
    Except MigrationError (Option Nat × List VersionRecord × List (Nat × Migration)) :=
  let sorted := sortByVersion curVersions
  match verifyLoop ignoreFailed ignoreConcurrent sorted migrations none with
  | .error e => .error e
  | .ok last =>
      let pending :=
        if last = none ∨ last = some 0 then migrations
        else migrations.drop (last.getD 0)
      .ok (last, sorted, enumerateFrom (last.getD 0 + 1) pending)

/-! ## Conditional writes against the version table

Cassandra offers per-row lightweight transactions (compare-and-set).  The
three statements used by the migrator are:

* `CREATE_DB_VERSION`: `INSERT ... IF NOT EXISTS` — applied iff no row with
  the given primary key `id` exists;
* `FINALIZE_DB_VERSION`: `UPDATE ... SET state = %s WHERE id = %s IF state = %s`
  — applied iff a row with that `id` exists and its state matches;
* `DELETE_DB_VERSION`: `DELETE ... WHERE id = %s IF state = %s` — applied iff
  a row with that `id` exists and its state matches.

Each returns the new table and the `applied` flag of the result row.
-/

/-- Cassandra `INSERT ... IF NOT EXISTS` keyed on `id`. -/
def tableInsertIfNotExists (t : List VersionRecord) (r : VersionRecord) :
    List VersionRecord × Bool :=
  if ∃ x ∈ t, x.id = r.id then (t, false) else (t ++ [r], true)

/-- Cassandra `UPDATE ... SET state = newState WHERE id = i IF state = expected`. -/
def tableFinalize (t : List VersionRecord) (newState : MigrationState)
    (i : Nat) (expected : MigrationState) : List VersionRecord × Bool :=
  if ∃ x ∈ t, x.id = i ∧ x.state = expected then
    (t.map (fun x => if x.id = i then { x with state := newState } else x), true)
  else (t, false)

/-- Cassandra `DELETE ... WHERE id = i IF state = expected`. -/
def tableDeleteIf (t : List VersionRecord) (i : Nat) (expected : MigrationState) :
    List VersionRecord × Bool :=
  if ∃ x ∈ t, x.id = i ∧ x.state = expected then
    (t.filter (fun x => !(x.id = i)), true)
  else (t, false)

/-- The row written by `Migrator._create_version`: a fresh uuid, the target
version and a snapshot of the descriptor. -/
def mkRecord (i v : Nat) (m : Migration) (st : MigrationState) : VersionRecord :=
  { id := i, version := v, name := m.name, content := m.content,
    checksum := m.checksum, state := st }

/-- Source `Migrator._create_version`: insert an IN_PROGRESS row for `version` with
a freshly generated uuid (`versionId`) via `CREATE_DB_VERSION`
(`IF NOT EXISTS` on the primary key `id`).  If `applied` is false a
concurrent write interfered — raise `ConcurrentMigration`; otherwise return
the uuid of the new row. -/
def createVersion (t : List VersionRecord) (versionId version : Nat) (m : Migration) :
    Except MigrationError (List VersionRecord × Nat) :=
  let p := tableInsertIfNotExists t (mkRecord versionId version m MigrationState.inProgress)
  if p.2 then .ok (p.1, versionId) else .error (.concurrentMigration version m.name)

/-- Source `Migrator._apply_migration`: open an IN_PROGRESS row, run the script
(`_apply_cql_migration` / `_apply_python_migration`, abstracted by the
`execOk` oracle since execution happens in the external database), then
finalize the row under `IF state = IN_PROGRESS`.  Mirrors the Python
`try/except/else/finally` flow: on an execution failure the `finally` block
still finalizes the row to FAILED and `FailedMigration` propagates (skipping
the applied-check after the block); on success/skip the row is finalized to
SUCCEEDED/SKIPPED and a non-applied finalize raises `ConcurrentMigration`. -/
def applyMigration (t : List VersionRecord) (versionId version : Nat) (m : Migration)
    (skip execOk : Bool) : List VersionRecord × Except MigrationError Unit :=
  match createVersion t versionId version m with
  | .error e => (t, .error e)
  | .ok (t1, vid) =>
      if skip || execOk then
        let st := if skip then MigrationState.skipped else MigrationState.succeeded
        let p := tableFinalize t1 st vid MigrationState.inProgress
        if p.2 then (p.1, .ok ())
        else (p.1, .error (.concurrentMigration version m.name))
      else
        let p := tableFinalize t1 MigrationState.failed vid MigrationState.inProgress
        (p.1, .error (.failedMigration version m.name))

/-- The loop of `Migrator._advance`: walk the pending list in order, stop
before the first version above the target, apply each migration and abort on
the first error.  `ids` supplies the generated uuid and `exec` the execution
outcome for each version. -/
def advanceLoop (t : List VersionRecord) (pending : List (Nat × Migration))
    (targetVersion : Nat) (ids : Nat → Nat) (exec : Nat → Bool) (skip : Bool) :
    List VersionRecord × Except MigrationError Unit :=
  match pending with
  | [] => (t, .ok ())
  | (v, m) :: rest =>
      if targetVersion < v then (t, .ok ())
      else
        match applyMigration t (ids v) v m skip (exec v) with
        | (t', .ok ()) => advanceLoop t' rest targetVersion ids exec skip
        | (t', .error e) => (t', .error e)

/-- Source `Migrator._cleanup_previous_versions`: when forcing, if the last row of
the (sorted) history is FAILED, delete it under `IF state = FAILED`; a
non-applied delete raises `ConcurrentMigration`. -/
def cleanupPreviousVersions (t : List VersionRecord) (curVersions : List VersionRecord) :
    Except MigrationError (List VersionRecord) :=
  match curVersions.getLast? with
  | none => .ok t
  | some last =>
      if last.state = MigrationState.failed then
        let p := tableDeleteIf t last.id MigrationState.failed
        if p.2 then .ok p.1
        else .error (.concurrentMigration last.version last.name)
      else .ok t

/-! ## The version-table step relation

Concurrency in the system is across processes; the remote table is the only
shared state and the three conditional writes above are the only mutations
ever performed on it (`_create_version` inserts an IN_PROGRESS row,
`_apply_migration` finalizes under `IF state = IN_PROGRESS`,
`_cleanup_previous_versions` deletes under `IF state = FAILED`).  A step is
one such write by some process; a reachable state is any table obtainable
from the empty table created by `_ensure_table`. -/
inductive TableStep : List VersionRecord → List VersionRecord → Prop where
  | openStep (t : List VersionRecord) (r : VersionRecord)
      (h : r.state = MigrationState.inProgress) :
      TableStep t (tableInsertIfNotExists t r).1
  | finalizeStep (t : List VersionRecord) (i : Nat) (s : MigrationState) :
      TableStep t (tableFinalize t s i MigrationState.inProgress).1
  | cleanupStep (t : List VersionRecord) (i : Nat) :
      TableStep t (tableDeleteIf t i MigrationState.failed).1

/-- Tables reachable from the initial empty migrations table. -/
inductive ReachableTable : List VersionRecord → Prop where
  | init : ReachableTable []
  | step (t t' : List VersionRecord) :
      ReachableTable t → TableStep t t' → ReachableTable t'

/-! ## Target version resolution (`Migrator._get_target_version`) -/

/-- A version specifier as passed on the command line or programmatically:
`None`, an `int`, or a string (numeric or a migration name). -/
inductive VersionSpec where
  | intSpec (n : Int)
  | strSpec (s : String)
deriving DecidableEq, Repr

/-- The two `ValueError` shapes `_get_target_version` can produce: its own
`raise ValueError('Invalid database version, ...')`, and the
`ValueError: ... is not in list` raised by `list.index` for an unknown name
(the surrounding `except IndexError` clause cannot catch it, since
`list.index` raises `ValueError`, so it propagates). -/
inductive PyValueError where
  | invalidVersion
  | notInList
deriving DecidableEq, Repr

/-- Python `str.isdigit()` restricted to ASCII: non-empty and all digits. -/
def isDigitString (s : String) : Bool :=
  !s.data.isEmpty && s.data.all Char.isDigit

/-- Decimal value of an all-digit ASCII string (`int(v)`). -/
def digitsToNat (s : String) : Nat :=
  s.data.foldl (fun acc c => 10 * acc + (c.toNat - 48)) 0

/-- Modelled from the spec: name lookup in the descriptor sequence.  The
absent `migration.py` defines descriptor equality against a name; Python's
`list.index` then returns the 0-based position of the first element equal to
the argument and raises `ValueError` when there is none. -/
def migrationIndex : List Migration → String → Option Nat
  | [], _ => none
  | m :: ms, s =>
      if m.name = s then some 0 else (migrationIndex ms s).map (· + 1)

/-- Source `Migrator._get_target_version`: `None` resolves to `len(migrations)`;
an `int` is used directly; an all-digit string is parsed; any other string
is looked up with `self.config.migrations.index(v)`; finally a resolved
number `<= 0` raises `ValueError`. -/
def getTargetVersion (migrations : List Migration) (v : Option VersionSpec) :
    Except PyValueError Int :=
  match v with
  | none => .ok migrations.length
  | some (.intSpec n) =>
      if n ≤ 0 then .error .invalidVersion else .ok n
  | some (.strSpec s) =>
      if isDigitString s then
        let num : Int := digitsToNat s
        if num ≤ 0 then .error .invalidVersion else .ok num
      else
        match migrationIndex migrations s with
        | some idx =>
            if (idx : Int) ≤ 0 then .error .invalidVersion else .ok idx
        | none => .error .notInList

/-! ## Helper constructions for verifier theorems -/

/-- A history fragment that is a faithful snapshot of a descriptor list:
row `k` (0-indexed `k`) carries version `v + k`, the descriptor's name,
content and checksum, and the given state.  Ids are chosen equal to the
versions (the verifier never reads ids). -/
def mkRows (st : MigrationState) : List Migration → Nat → List VersionRecord
  | [], _ => []
  | m :: ms, v => mkRecord v v m st :: mkRows st ms (v + 1)

lemma mkRows_version_bound (st : MigrationState) :
    ∀ ms v, ∀ r ∈ mkRows st ms v, v ≤ r.version ∧ r.version < v + ms.length := by
  intro ms
  induction ms with
  | nil => intro v r hr; simp [mkRows] at hr
  | cons m ms ih =>
      intro v r hr
      simp only [mkRows, List.mem_cons] at hr
      rcases hr with rfl | hr
      · simp [mkRecord]
      · have := ih (v + 1) r hr
        constructor
        · omega
        · simp
          omega

lemma mkRows_pairwise (st : MigrationState) :
    ∀ ms v, List.Pairwise (fun a b => a.version ≤ b.version) (mkRows st ms v) := by
  intro ms
  induction ms with
  | nil => intro v; simp [mkRows]
  | cons m ms ih =>
      intro v
      simp only [mkRows]
      refine List.Pairwise.cons ?_ (ih (v + 1))
      intro r hr
      have := (mkRows_version_bound st ms (v + 1) r hr).1
      simp [mkRecord]
      omega

lemma insertByVersion_le (r : VersionRecord) (l : List VersionRecord)
    (h : ∀ x ∈ l, r.version ≤ x.version) : insertByVersion r l = r :: l := by
  cases l with
  | nil => rfl
  | cons x xs =>
      have := h x (by simp)
      simp [insertByVersion, this]

lemma sortByVersion_eq_self :
    ∀ l, List.Pairwise (fun a b => a.version ≤ b.version) l → sortByVersion l = l := by
  intro l
  induction l with
  | nil => intro _; rfl
  | cons x xs ih =>
      intro h
      have hx : ∀ y ∈ xs, x.version ≤ y.version := fun y hy =>
        List.rel_of_pairwise_cons h hy
      have htl := List.Pairwise.of_cons h
      simp only [sortByVersion]
      rw [ih htl]
      exact insertByVersion_le x xs hx

/-- Scanning a consistent SUCCEEDED snapshot of a descriptor program prefix
just advances `last_version` to the last snapshot row's version and
continues with whatever follows. -/
lemma verifyLoop_snapshot (igF igC : Bool) :
    ∀ (ms mrest : List Migration) (hrest : List VersionRecord) (v : Nat) (prev : Option Nat),
      verifyLoop igF igC (mkRows MigrationState.succeeded ms v ++ hrest) (ms ++ mrest) prev =
        verifyLoop igF igC hrest mrest
          (if ms.isEmpty then prev else some (v + ms.length - 1)) := by
  intro ms
  induction ms with
  | nil => intro mrest hrest v prev; simp [mkRows]
  | cons m ms ih =>
      intro mrest hrest v prev
      simp only [mkRows, List.cons_append]
      rw [verifyLoop]
      rw [if_neg (by simp [mkRecord]), if_neg (by simp [mkRecord]),
          if_neg (by simp [mkRecord])]
      rw [show (mkRecord v v m MigrationState.succeeded).version = v from rfl]
      rw [ih mrest hrest (v + 1) (some v)]
      have harg : (if ms.isEmpty then some v else some (v + 1 + ms.length - 1)) =
          (if (m :: ms).isEmpty then prev else some (v + (m :: ms).length - 1)) := by
        cases ms with
        | nil => simp
        | cons m' ms' =>
            simp
            omega
      rw [harg]

lemma mkRows_snoc_pairwise (st : MigrationState) (ms : List Migration) (v : Nat)
    (e : VersionRecord) (he : v + ms.length ≤ e.version + 1) :
    List.Pairwise (fun a b => a.version ≤ b.version) (mkRows st ms v ++ [e]) := by
  rw [List.pairwise_append]
  refine ⟨mkRows_pairwise st ms v, by simp, ?_⟩
  intro a ha b hb
  simp at hb
  subst hb
  have := (mkRows_version_bound st ms v a ha).2
  omega

/-- Concrete descriptors used in witnesses and counterexamples. -/
def mOne : Migration :=
  { name := "one", content := "CREATE TABLE one", checksum := [1], isPython := false }

/-- Second concrete descriptor. -/
def mTwo : Migration :=
  { name := "two", content := "CREATE TABLE two", checksum := [2], isPython := false }

/-- Third concrete descriptor. -/
def mThree : Migration :=
  { name := "three", content := "CREATE TABLE three", checksum := [3], isPython := false }

/-- C3: for every history that is a consistent, in-order SUCCEEDED prefix of
the descriptor list (dense versions `1..k`), verify returns
`lastAppliedVersion = k` (`none` for the empty history) and the pending list
is exactly the descriptor suffix `k+1..n`, each descriptor paired with its
1-indexed position; for an empty history (`k = 0`) the pending list is the
whole sequence numbered from 1. -/
theorem C3_consistent_history (migs : List Migration) (k : Nat) (f c : Bool)
    (hk : k ≤ migs.length) :
    verifyMigrations migs (mkRows MigrationState.succeeded (migs.take k) 1) f c =
      .ok (if k = 0 then none else some k,
           mkRows MigrationState.succeeded (migs.take k) 1,
           enumerateFrom (k + 1) (migs.drop k)) := by
  have hlen : (migs.take k).length = k := by
    rw [List.length_take]
    omega
  simp only [verifyMigrations]
  rw [sortByVersion_eq_self _ (mkRows_pairwise _ _ _)]
  have hms := verifyLoop_snapshot f c (migs.take k) (migs.drop k) [] 1 none
  rw [List.append_nil, List.take_append_drop] at hms
  rw [hms, hlen]
  by_cases hk0 : k = 0
  · subst hk0
    simp [verifyLoop, List.take]
  · have hne : ¬(migs.take k).isEmpty := by
      intro hcon
      rw [List.isEmpty_iff] at hcon
      rw [hcon] at hlen
      simp at hlen
      omega
    rw [if_neg (by simpa using hne)]
    have h1 : 1 + k - 1 = k := by omega
    rw [h1]
    simp only [verifyLoop]
    rw [if_neg (by simp [hk0])]
    simp [hk0]

/-- C3 witness: three descriptors, consistent prefix of length 2. -/
theorem C3_consistent_history_witness :
    2 ≤ ([mOne, mTwo, mThree] : List Migration).length ∧
    verifyMigrations [mOne, mTwo, mThree]
        (mkRows MigrationState.succeeded [mOne, mTwo] 1) false false =
      .ok (some 2, mkRows MigrationState.succeeded [mOne, mTwo] 1, [(3, mThree)]) := by
  refine ⟨by decide, ?_⟩
  have h := C3_consistent_history [mOne, mTwo, mThree] 2 false false (by decide)
  exact h

/-- C10: the verifier trusts the stored `version` field: a history whose
single consistent row (a snapshot of the first descriptor) carries version
`k > 1` yields `lastAppliedVersion = k` and a pending list that is the
descriptor suffix sliced at `k`, numbered from `k + 1` — descriptors
`2..k` are skipped even though they were never recorded as applied. -/
theorem C10_stored_version_trusted (m : Migration) (rest : List Migration) (k i : Nat)
    (f c : Bool) (hk : 1 < k) :
    verifyMigrations (m :: rest) [mkRecord i k m MigrationState.succeeded] f c =
      .ok (some k, [mkRecord i k m MigrationState.succeeded],
           enumerateFrom (k + 1) ((m :: rest).drop k)) := by
  simp only [verifyMigrations]
  have hsort : sortByVersion [mkRecord i k m MigrationState.succeeded] =
      [mkRecord i k m MigrationState.succeeded] := rfl
  rw [hsort]
  have hone : verifyLoop f c [mkRecord i k m MigrationState.succeeded] (m :: rest) none =
      .ok (some k) := by
    rw [verifyLoop]
    rw [if_neg (by simp [mkRecord]), if_neg (by simp [mkRecord]),
        if_neg (by simp [mkRecord])]
    simp [mkRecord, verifyLoop]
  rw [hone]
  have hk0 : ¬(k = 0) := by omega
  simp [hk0]

/-- C10 witness: descriptors one/two/three, single row with stored version 2
snapshotting descriptor one — version 2's descriptor is never pending. -/
theorem C10_stored_version_trusted_witness :
    1 < 2 ∧
    verifyMigrations [mOne, mTwo, mThree] [mkRecord 7 2 mOne MigrationState.succeeded]
        false false =
      .ok (some 2, [mkRecord 7 2 mOne MigrationState.succeeded], [(3, mThree)]) := by
  refine ⟨by decide, ?_⟩
  have h := C10_stored_version_trusted mOne [mTwo, mThree] 2 7 false false (by decide)
  exact h

/-- C2 counterexample: descriptors one/two/three, history `[1 SUCCEEDED,
2 IN_PROGRESS]` (all consistent), `ignoreConcurrent = true`.  The claim
predicts `lastAppliedVersion = 1` and pending `[(2, two), (3, three)]`; the
code updates `last_version` *before* the IN_PROGRESS break, so it returns
`lastAppliedVersion = 2` and pending `[(3, three)]`. -/
theorem C2_counterexample :
    verifyMigrations [mOne, mTwo, mThree]
        [mkRecord 1 1 mOne MigrationState.succeeded,
         mkRecord 2 2 mTwo MigrationState.inProgress] false true =
      .ok (some 2,
           [mkRecord 1 1 mOne MigrationState.succeeded,
            mkRecord 2 2 mTwo MigrationState.inProgress],
           [(3, mThree)]) ∧
    (some 2 : Option Nat) ≠ some 1 ∧
    ([(3, mThree)] : List (Nat × Migration)) ≠ [(2, mTwo), (3, mThree)] := by
  refine ⟨rfl, by decide, by decide⟩

/-- C2 (amended): with the history consistent and SUCCEEDED up to position
`k-1` and IN_PROGRESS at position `k` (dense versions), verify with
`ignoreConcurrent = true` stops at position `k` but counts the IN_PROGRESS
entry: `lastAppliedVersion = k` and the pending list starts at version
`k + 1` — the IN_PROGRESS migration itself is not pending. -/
theorem C2_amended_in_progress (pre rest : List Migration) (m : Migration)
    (f : Bool) (i : Nat) :
    verifyMigrations (pre ++ m :: rest)
        (mkRows MigrationState.succeeded pre 1 ++
          [mkRecord i (pre.length + 1) m MigrationState.inProgress]) f true =
      .ok (some (pre.length + 1),
           mkRows MigrationState.succeeded pre 1 ++
             [mkRecord i (pre.length + 1) m MigrationState.inProgress],
           enumerateFrom (pre.length + 2) rest) := by
  simp only [verifyMigrations]
  rw [sortByVersion_eq_self _
        (mkRows_snoc_pairwise MigrationState.succeeded pre 1
          (mkRecord i (pre.length + 1) m MigrationState.inProgress)
          (by simp [mkRecord]; omega))]
  have hms := verifyLoop_snapshot f true pre (m :: rest)
      [mkRecord i (pre.length + 1) m MigrationState.inProgress] 1 none
  rw [hms]
  have hone : verifyLoop f true
      [mkRecord i (pre.length + 1) m MigrationState.inProgress] (m :: rest)
      (if pre.isEmpty then none else some (1 + pre.length - 1)) =
      .ok (some (pre.length + 1)) := by
    rw [verifyLoop]
    rw [if_neg (by simp [mkRecord]), if_pos (by simp [mkRecord])]
    simp [mkRecord]
  rw [hone]
  have hdrop : (pre ++ m :: rest).drop (pre.length + 1) = rest := by
    have heq : pre ++ m :: rest = (pre ++ [m]) ++ rest := by simp
    have hlen2 : pre.length + 1 = (pre ++ [m]).length := by simp
    rw [heq, hlen2, List.drop_left]
  simp [hdrop]

/-- C2 amended witness: prefix of length 1, IN_PROGRESS at version 2. -/
theorem C2_amended_in_progress_witness :
    verifyMigrations [mOne, mTwo, mThree]
        (mkRows MigrationState.succeeded [mOne] 1 ++
          [mkRecord 9 2 mTwo MigrationState.inProgress]) false true =
      .ok (some 2,
           mkRows MigrationState.succeeded [mOne] 1 ++
             [mkRecord 9 2 mTwo MigrationState.inProgress],
           [(3, mThree)]) := by
  have h := C2_amended_in_progress [mOne] [mThree] mTwo false 9
  exact h

/-- C7 counterexample: one descriptor, history of two rows (longer than the
descriptor list) whose first row is FAILED.  With default flags verify
raises `FailedMigration`, not `UnknownMigration`; with `ignoreFailed = true`
it returns a normal result and never reports the extra row at all. -/
theorem C7_counterexample :
    verifyMigrations [mOne]
        [mkRecord 1 1 mOne MigrationState.failed,
         mkRecord 2 2 mTwo MigrationState.succeeded] false false =
      .error (.failedMigration 1 mOne.name) ∧
    verifyMigrations [mOne]
        [mkRecord 1 1 mOne MigrationState.failed,
         mkRecord 2 2 mTwo MigrationState.succeeded] true false =
      .ok (none,
           [mkRecord 1 1 mOne MigrationState.failed,
            mkRecord 2 2 mTwo MigrationState.succeeded],
           [(1, mOne)]) ∧
    ([mkRecord 1 1 mOne MigrationState.failed,
      mkRecord 2 2 mTwo MigrationState.succeeded] : List VersionRecord).length >
      ([mOne] : List Migration).length ∧
    MigrationError.failedMigration 1 mOne.name ≠
      MigrationError.unknownMigration 2 mTwo.name := by
  refine ⟨rfl, rfl, by decide, by decide⟩

/-- C7 (amended): when every paired position is consistent and SUCCEEDED
(dense versions `1..n`), a history longer than the descriptor sequence makes
verify raise `UnknownMigration` carrying the extra row's version and name,
with no partial result. -/
theorem C7_amended_unknown (migs : List Migration) (e : VersionRecord) (f c : Bool)
    (hv : migs.length ≤ e.version) :
    verifyMigrations migs (mkRows MigrationState.succeeded migs 1 ++ [e]) f c =
      .error (.unknownMigration e.version e.name) := by
  simp only [verifyMigrations]
  rw [sortByVersion_eq_self _
        (mkRows_snoc_pairwise MigrationState.succeeded migs 1 e (by omega))]
  have hms := verifyLoop_snapshot f c migs [] [e] 1 none
  rw [List.append_nil] at hms
  rw [hms]
  simp only [verifyLoop]

/-- C7 amended witness: one descriptor, consistent SUCCEEDED row 1 plus an
extra row at version 2. -/
theorem C7_amended_unknown_witness :
    ([mOne] : List Migration).length ≤ (mkRecord 5 2 mTwo MigrationState.succeeded).version ∧
    verifyMigrations [mOne]
        (mkRows MigrationState.succeeded [mOne] 1 ++
          [mkRecord 5 2 mTwo MigrationState.succeeded]) false false =
      .error (.unknownMigration 2 mTwo.name) := by
  refine ⟨by decide, ?_⟩
  have h := C7_amended_unknown [mOne] (mkRecord 5 2 mTwo MigrationState.succeeded)
      false false (by decide)
  exact h

lemma map_update_id (t : List VersionRecord) (i : Nat)
    (f : VersionRecord → VersionRecord) (h : ∀ r ∈ t, r.id ≠ i) :
    t.map (fun x => if x.id = i then f x else x) = t := by
  induction t with
  | nil => rfl
  | cons x xs ih =>
      simp only [List.map_cons]
      rw [if_neg (h x (by simp))]
      rw [ih (fun r hr => h r (by simp [hr]))]

lemma reachable_pairwise_id (t : List VersionRecord) (h : ReachableTable t) :
    List.Pairwise (fun a b => a.id ≠ b.id) t := by
  induction h with
  | init => exact List.Pairwise.nil
  | step t t' _ hstep ih =>
      cases hstep with
      | openStep r hr =>
          unfold tableInsertIfNotExists
          split
          · exact ih
          · rename_i hex
            show List.Pairwise (fun a b => a.id ≠ b.id) (t ++ [r])
            rw [List.pairwise_append]
            refine ⟨ih, by simp, ?_⟩
            intro a ha b hb
            simp at hb
            subst hb
            intro hcon
            exact hex ⟨a, ha, hcon⟩
      | finalizeStep i s =>
          unfold tableFinalize
          split
          · rename_i hex
            show List.Pairwise (fun a b => a.id ≠ b.id)
              (t.map (fun x => if x.id = i then { x with state := s } else x))
            rw [List.pairwise_map]
            have hid : ∀ x : VersionRecord,
                (if x.id = i then { x with state := s } else x).id = x.id := by
              intro x
              by_cases hx : x.id = i <;> simp [hx]
            refine ih.imp ?_
            intro a b hab
            simpa [hid] using hab
          · exact ih
      | cleanupStep i =>
          unfold tableDeleteIf
          split
          · show List.Pairwise (fun a b => a.id ≠ b.id)
              (t.filter (fun x => !(x.id = i)))
            exact List.Pairwise.sublist (List.filter_sublist t) ih
          · exact ih

/-- C1 counterexample: from the empty table, two open-phase inserts at the
same version 1 with distinct fresh uuids both report `applied` (neither
raises `ConcurrentMigration`), and the resulting reachable table holds two
IN_PROGRESS records at version 1 — the CAS insert is keyed on the fresh
`id`, not on the version. -/
theorem C1_counterexample :
    ReachableTable [mkRecord 1 1 mOne MigrationState.inProgress,
                    mkRecord 2 1 mOne MigrationState.inProgress] ∧
    createVersion [] 1 1 mOne = .ok ([mkRecord 1 1 mOne MigrationState.inProgress], 1) ∧
    createVersion [mkRecord 1 1 mOne MigrationState.inProgress] 2 1 mOne =
      .ok ([mkRecord 1 1 mOne MigrationState.inProgress,
            mkRecord 2 1 mOne MigrationState.inProgress], 2) ∧
    List.countP (fun r => decide (r.version = 1 ∧ r.state = MigrationState.inProgress))
        [mkRecord 1 1 mOne MigrationState.inProgress,
         mkRecord 2 1 mOne MigrationState.inProgress] = 2 := by
  refine ⟨?_, rfl, rfl, by decide⟩
  exact ReachableTable.step _ _
    (ReachableTable.step _ _ ReachableTable.init
      (TableStep.openStep [] (mkRecord 1 1 mOne MigrationState.inProgress) rfl))
    (TableStep.openStep [mkRecord 1 1 mOne MigrationState.inProgress]
      (mkRecord 2 1 mOne MigrationState.inProgress) rfl)

/-- C1 (amended): the uniqueness the CAS insert does enforce is per `id`,
not per version: every reachable table has pairwise-distinct ids, and of two
open-phase inserts with the *same* id, exactly one reports applied — the
second raises `ConcurrentMigration`.  (Two opens at the same version with
distinct fresh ids both succeed, as the counterexample shows.) -/
theorem C1_amended_per_id (t : List VersionRecord) (h : ReachableTable t) :
    List.Pairwise (fun a b => a.id ≠ b.id) t ∧
    ∀ i v v' : Nat, ∀ m m' : Migration, ∀ t' : List VersionRecord,
      createVersion t i v m = .ok (t', i) →
      createVersion t' i v' m' = .error (.concurrentMigration v' m'.name) := by
  refine ⟨reachable_pairwise_id t h, ?_⟩
  intro i v v' m m' t' hcv
  by_cases hex : ∃ x ∈ t, x.id = i
  · have hex' : ∃ x ∈ t, x.id = (mkRecord i v m MigrationState.inProgress).id := by
      simpa [mkRecord] using hex
    unfold createVersion tableInsertIfNotExists at hcv
    rw [if_pos hex'] at hcv
    simp at hcv
  · have hex' : ¬∃ x ∈ t, x.id = (mkRecord i v m MigrationState.inProgress).id := by
      simpa [mkRecord] using hex
    unfold createVersion tableInsertIfNotExists at hcv
    rw [if_neg hex'] at hcv
    simp at hcv
    subst hcv
    have hexist : ∃ x ∈ t ++ [mkRecord i v m MigrationState.inProgress],
        x.id = (mkRecord i v' m' MigrationState.inProgress).id := by
      exact ⟨mkRecord i v m MigrationState.inProgress, by simp, by simp [mkRecord]⟩
    unfold createVersion tableInsertIfNotExists
    rw [if_pos hexist]
    rfl

/-- C1 amended witness: a concrete reachable one-row table. -/
theorem C1_amended_per_id_witness :
    ReachableTable [mkRecord 1 1 mOne MigrationState.inProgress] ∧
    (List.Pairwise (fun a b => a.id ≠ b.id)
        [mkRecord 1 1 mOne MigrationState.inProgress] ∧
     ∀ i v v' : Nat, ∀ m m' : Migration, ∀ t' : List VersionRecord,
       createVersion [mkRecord 1 1 mOne MigrationState.inProgress] i v m = .ok (t', i) →
       createVersion t' i v' m' = .error (.concurrentMigration v' m'.name)) := by
  have hr : ReachableTable [mkRecord 1 1 mOne MigrationState.inProgress] :=
    ReachableTable.step _ _ ReachableTable.init
      (TableStep.openStep [] (mkRecord 1 1 mOne MigrationState.inProgress) rfl)
  exact ⟨hr, C1_amended_per_id _ hr⟩

/-- C4: a pending migration whose execution fails has its freshly opened
version row finalized to state FAILED (it is not left IN_PROGRESS), the
advancer loop returns `FailedMigration` with the version and name, and no
remaining pending migration is processed — the final table is exactly the
input table plus the single FAILED row. -/
theorem C4_failed_execution (t : List VersionRecord) (rest : List (Nat × Migration))
    (v target : Nat) (m : Migration) (ids : Nat → Nat) (exec : Nat → Bool)
    (hfresh : ∀ r ∈ t, r.id ≠ ids v) (hle : v ≤ target) (hexec : exec v = false) :
    advanceLoop t ((v, m) :: rest) target ids exec false =
      (t ++ [mkRecord (ids v) v m MigrationState.failed],
       .error (.failedMigration v m.name)) := by
  have hnlt : ¬(target < v) := by omega
  have hexn : ¬∃ x ∈ t, x.id = ids v := by
    rintro ⟨x, hx, he⟩
    exact hfresh x hx he
  have hex2 : ∃ x ∈ t ++ [mkRecord (ids v) v m MigrationState.inProgress],
      x.id = ids v ∧ x.state = MigrationState.inProgress :=
    ⟨mkRecord (ids v) v m MigrationState.inProgress, by simp, rfl, rfl⟩
  have hcreate : createVersion t (ids v) v m =
      .ok (t ++ [mkRecord (ids v) v m MigrationState.inProgress], ids v) := by
    have hexn' : ¬∃ x ∈ t, x.id = (mkRecord (ids v) v m MigrationState.inProgress).id := by
      simpa [mkRecord] using hexn
    unfold createVersion tableInsertIfNotExists
    rw [if_neg hexn']
    rfl
  have hfin : tableFinalize (t ++ [mkRecord (ids v) v m MigrationState.inProgress])
      MigrationState.failed (ids v) MigrationState.inProgress =
      (t ++ [mkRecord (ids v) v m MigrationState.failed], true) := by
    unfold tableFinalize
    rw [if_pos hex2]
    simp only [List.map_append]
    rw [map_update_id t (ids v) _ hfresh]
    simp [mkRecord]
  have happly : applyMigration t (ids v) v m false false =
      (t ++ [mkRecord (ids v) v m MigrationState.failed],
       .error (.failedMigration v m.name)) := by
    unfold applyMigration
    rw [hcreate]
    simp [hfin]
  simp only [advanceLoop]
  rw [if_neg hnlt, hexec, happly]

/-- C4 witness: empty table, execution of version 1 fails, version 2 still
pending behind it. -/
theorem C4_failed_execution_witness :
    1 ≤ 1 ∧ (fun _ : Nat => false) 1 = false ∧
    advanceLoop [] [(1, mOne), (2, mTwo)] 1 (fun _ => 5) (fun _ => false) false =
      ([mkRecord 5 1 mOne MigrationState.failed],
       .error (.failedMigration 1 mOne.name)) := by
  refine ⟨le_refl 1, rfl, ?_⟩
  have h := C4_failed_execution [] [(2, mTwo)] 1 1 mOne (fun _ => 5) (fun _ => false)
      (by simp) (le_refl 1) rfl
  exact h

/-- C6: target-version resolution.  `None` and numeric specifications behave
as claimed, but a migration *name* is resolved with `list.index`, which is
0-based: the name of the second migration resolves to 1 (not 2), and the
first migration's own name raises `ValueError` because its index 0 fails the
`num <= 0` check — contradicting the docstring "the version with that name
is chosen if it exists".  An unknown name raises the `ValueError` of
`list.index` itself (the `except IndexError` clause never fires). -/
theorem C6_name_resolution_bug :
    getTargetVersion [mOne, mTwo] (some (.strSpec "two")) = .ok 1 ∧
    getTargetVersion [mOne, mTwo] (some (.strSpec "one")) = .error .invalidVersion ∧
    (1 : Int) ≠ 2 ∧
    getTargetVersion [mOne, mTwo] none = .ok 2 ∧
    getTargetVersion [mOne, mTwo] (some (.strSpec "2")) = .ok 2 ∧
    getTargetVersion [mOne, mTwo] (some (.intSpec 0)) = .error .invalidVersion ∧
    getTargetVersion [mOne, mTwo] (some (.strSpec "missing")) = .error .notInList := by
  refine ⟨rfl, rfl, by decide, rfl, rfl, rfl, rfl⟩

/-! ## Scanner lemmas for the splitter claims -/

lemma strBody_closes (q : Char) :
    ∀ (content : List Char), (∀ ch ∈ content, ch ≠ q ∧ ch ≠ '\\') →
      ∀ rest, strBody q (content ++ q :: rest) = some (content ++ [q], rest) := by
  intro content
  induction content with
  | nil =>
      intro _ rest
      cases rest with
      | nil => simp [strBody]
      | cons r rs => simp [strBody]
  | cons c cs ih =>
      intro hc rest
      have hcq : c ≠ q := (hc c (by simp)).1
      have hcb : c ≠ '\\' := (hc c (by simp)).2
      have ihcs := ih (fun ch hch => hc ch (by simp [hch])) rest
      cases cs with
      | nil =>
          cases rest with
          | nil => simp [strBody, hcq, hcb]
          | cons r rs => simp [strBody, hcq, hcb]
      | cons c2 cs' =>
          simp only [List.cons_append]
          simp only [List.cons_append] at ihcs
          simp [strBody, hcq, hcb, ihcs]

lemma dollarBody_closes :
    ∀ (content : List Char), (∀ ch ∈ content, ch ≠ '$' ∧ ch ≠ '\\') →
      ∀ rest, dollarBody (content ++ '$' :: '$' :: rest) = some (content ++ ['$', '$'], rest) := by
  intro content
  induction content with
  | nil =>
      intro _ rest
      simp [dollarBody]
  | cons c cs ih =>
      intro hc rest
      have hcq : c ≠ '$' := (hc c (by simp)).1
      have hcb : c ≠ '\\' := (hc c (by simp)).2
      have ihcs := ih (fun ch hch => hc ch (by simp [hch])) rest
      cases cs with
      | nil => simp [dollarBody, hcq, hcb]
      | cons c2 cs' =>
          simp only [List.cons_append]
          simp only [List.cons_append] at ihcs
          simp [dollarBody, hcq, hcb, ihcs]

lemma findClose_skips :
    ∀ (xs : List Char), '*' ∉ xs →
      ∀ rest, findClose (xs ++ '*' :: '/' :: rest) = some (xs, rest) := by
  intro xs
  induction xs with
  | nil =>
      intro _ rest
      simp [findClose]
  | cons x xs' ih =>
      intro hx rest
      have hxs : x ≠ '*' := by
        intro hcon
        exact hx (by simp [hcon])
      have ihxs := ih (fun hcon => hx (by simp [hcon])) rest
      simp only [List.cons_append]
      simp [findClose, hxs, ihxs]

lemma blockBody_closes (body : List Char) (hne : body ≠ []) (hstar : '*' ∉ body) :
    ∀ rest, blockBody (body ++ '*' :: '/' :: rest) = some (body, rest) := by
  intro rest
  cases body with
  | nil => exact absurd rfl hne
  | cons x xs =>
      have hxs : '*' ∉ xs := fun hcon => hstar (by simp [hcon])
      simp only [List.cons_append, blockBody]
      simp [findClose_skips xs hxs rest]

/-- Characters that the scanner always classifies as `OTHER`, regardless of
context: ASCII letters, digits and underscore. -/
def plainChar (c : Char) : Bool := c.isAlphanum || c = '_'

lemma nextToken_plain (c : Char) (cs : List Char) (h : plainChar c = true) :
    nextToken c cs = (Tok.other c, cs) := by
  have h1 : c ≠ '-' := fun hEq => by subst hEq; exact absurd h (by decide)
  have h2 : c ≠ '/' := fun hEq => by subst hEq; exact absurd h (by decide)
  have h3 : c ≠ '"' := fun hEq => by subst hEq; exact absurd h (by decide)
  have h4 : c ≠ '\'' := fun hEq => by subst hEq; exact absurd h (by decide)
  have h5 : c ≠ '$' := fun hEq => by subst hEq; exact absurd h (by decide)
  have h6 : c ≠ ';' := fun hEq => by subst hEq; exact absurd h (by decide)
  have hsp : isPySpace c = false := by
    cases hspc : isPySpace c
    · rfl
    · exfalso
      simp [isPySpace] at hspc
      rcases hspc with ((((hc | hc) | hc) | hc) | hc) | hc <;> subst hc <;>
        exact absurd h (by decide)
  simp [nextToken, h1, h2, h3, h4, h5, h6, hsp]

lemma scanTokens_plain_append :
    ∀ (l : List Char), (∀ ch ∈ l, plainChar ch = true) →
      ∀ rest, scanTokens (l ++ rest) = l.map Tok.other ++ scanTokens rest := by
  intro l
  induction l with
  | nil => intro _ rest; simp
  | cons c cs ih =>
      intro hl rest
      simp only [List.cons_append]
      rw [scanTokens_cons, nextToken_plain c _ (hl c (by simp))]
      rw [ih (fun ch hch => hl ch (by simp [hch])) rest]
      simp

lemma dropWhile_of_all_false (p : Char → Bool) :
    ∀ (l : List Char), (∀ ch ∈ l, p ch = false) → l.dropWhile p = l := by
  intro l h
  cases l with
  | nil => rfl
  | cons x xs =>
      rw [List.dropWhile_cons, h x (by simp)]
      simp

lemma pyStrip_no_space (l : List Char) (h : ∀ ch ∈ l, isPySpace ch = false) :
    pyStrip l = l := by
  unfold pyStrip
  rw [dropWhile_of_all_false _ l h]
  rw [dropWhile_of_all_false _ l.reverse (fun ch hch => h ch (List.mem_reverse.mp hch))]
  exact List.reverse_reverse l

lemma pyStrip_all_space (l : List Char) (h : ∀ ch ∈ l, isPySpace ch = true) :
    pyStrip l = [] := by
  unfold pyStrip
  have h1 : l.dropWhile isPySpace = [] := by
    rw [List.dropWhile_eq_nil_iff]
    intro x hx
    exact h x hx
  rw [h1]
  simp

lemma pyStrip_sandwich (a b : Char) (l : List Char)
    (ha : isPySpace a = false) (hb : isPySpace b = false) :
    pyStrip (a :: (l ++ [b])) = a :: (l ++ [b]) := by
  unfold pyStrip
  rw [List.dropWhile_cons, ha]
  simp only [Bool.false_eq_true, if_false]
  rw [show (a :: (l ++ [b])).reverse = b :: (l.reverse ++ [a]) by simp]
  rw [List.dropWhile_cons, hb]
  simp

lemma splitLoop_others (l : List Char) :
    ∀ ts cur acc, splitLoop (l.map Tok.other ++ ts) cur acc = splitLoop ts (cur ++ l) acc := by
  intro ts
  induction l generalizing ts with
  | nil => intro cur acc; simp
  | cons c cs ih =>
      intro cur acc
      simp only [List.map_cons, List.cons_append, splitLoop]
      show splitLoop (List.map Tok.other cs ++ ts) (cur ++ [c]) acc = _
      rw [ih ts (cur ++ [c]) acc]
      simp

lemma scanTokensHeader (r : Char) (rs : List Char) (hr : isPySpace r = false) :
    scanTokens ("CREATE TABLE ".data ++ r :: rs) =
      [Tok.other 'C', Tok.other 'R', Tok.other 'E', Tok.other 'A', Tok.other 'T',
       Tok.other 'E', Tok.whitespace [' '], Tok.other 'T', Tok.other 'A',
       Tok.other 'B', Tok.other 'L', Tok.other 'E', Tok.whitespace [' ']] ++
        scanTokens (r :: rs) := by
  have hsh : "CREATE TABLE ".data ++ r :: rs =
      ['C', 'R', 'E', 'A', 'T', 'E'] ++
        (' ' :: (['T', 'A', 'B', 'L', 'E'] ++ (' ' :: (r :: rs)))) := by
    simp
  rw [hsh]
  rw [scanTokens_plain_append ['C', 'R', 'E', 'A', 'T', 'E'] (by decide)]
  rw [scanTokens_cons]
  rw [show nextToken ' ' (['T', 'A', 'B', 'L', 'E'] ++ (' ' :: (r :: rs))) =
      (Tok.whitespace [' '], ['T', 'A', 'B', 'L', 'E'] ++ (' ' :: (r :: rs))) from rfl]
  rw [scanTokens_plain_append ['T', 'A', 'B', 'L', 'E'] (by decide)]
  rw [scanTokens_cons]
  have hws : nextToken ' ' (r :: rs) = (Tok.whitespace [' '], r :: rs) := by
    unfold nextToken
    rw [if_neg (fun hcon => by
          rcases hcon with ⟨h, _⟩ | ⟨h, _⟩ <;> exact absurd h (by decide))]
    rw [if_neg (fun hcon => absurd hcon.1 (by decide))]
    rw [if_neg (by decide), if_neg (by decide)]
    rw [if_neg (fun hcon => absurd hcon.1 (by decide))]
    rw [if_neg (by decide)]
    rw [if_pos (by decide)]
    rw [List.takeWhile_cons, List.dropWhile_cons, hr]
    simp
  rw [hws]
  simp

lemma split_ct_token (s mid : List Char) (b : Char)
    (hs : s = mid ++ [b]) (hb : isPySpace b = false) :
    (splitLoop ([Tok.other 'C', Tok.other 'R', Tok.other 'E', Tok.other 'A', Tok.other 'T',
        Tok.other 'E', Tok.whitespace [' '], Tok.other 'T', Tok.other 'A', Tok.other 'B',
        Tok.other 'L', Tok.other 'E', Tok.whitespace [' ']] ++ [Tok.str s, Tok.semicolon])
      [] []).map (fun l => String.mk l) =
      [String.mk ("CREATE TABLE ".data ++ s)] := by
  subst hs
  have hpfx : ([Tok.other 'C', Tok.other 'R', Tok.other 'E', Tok.other 'A', Tok.other 'T',
      Tok.other 'E', Tok.whitespace [' '], Tok.other 'T', Tok.other 'A', Tok.other 'B',
      Tok.other 'L', Tok.other 'E', Tok.whitespace [' ']] : List Tok) ++
        [Tok.str (mid ++ [b]), Tok.semicolon] =
      (List.map Tok.other ['C', 'R', 'E', 'A', 'T', 'E']) ++
        (Tok.whitespace [' '] :: ((List.map Tok.other ['T', 'A', 'B', 'L', 'E']) ++
          (Tok.whitespace [' '] :: [Tok.str (mid ++ [b]), Tok.semicolon]))) := rfl
  rw [hpfx]
  rw [splitLoop_others ['C', 'R', 'E', 'A', 'T', 'E'] _ [] []]
  simp only [splitLoop]
  rw [show pyStrip ([] : List Char) = [] from rfl]
  simp only [List.isEmpty_nil, if_true]
  have hcur : ([] : List Char) ++ ['C', 'R', 'E', 'A', 'T', 'E'] ++ [' '] ++ ['T'] ++
      ['A'] ++ ['B'] ++ ['L'] ++ ['E'] ++ [' '] ++ (mid ++ [b]) =
      'C' :: ((['R', 'E', 'A', 'T', 'E', ' ', 'T', 'A', 'B', 'L', 'E', ' '] ++ mid) ++ [b]) := by
    simp
  rw [hcur, pyStrip_sandwich 'C' b _ (by decide) hb]
  simp only [List.isEmpty_cons, Bool.false_eq_true, if_false]
  simp only [List.nil_append, List.map_cons, List.map_nil]
  simp

lemma plain_not_space (c : Char) (h : plainChar c = true) : isPySpace c = false := by
  cases hspc : isPySpace c
  · rfl
  · exfalso
    simp [isPySpace] at hspc
    rcases hspc with ((((hc | hc) | hc) | hc) | hc) | hc <;> subst hc <;>
      exact absurd h (by decide)

/-- C5: a semicolon inside a single-quoted, double-quoted or dollar-quoted
string literal never terminates a statement: for any literal content (which
may contain semicolons, and is free of the closing quote character and of
backslashes), `split` of the spec's `CREATE TABLE` statement returns exactly
one statement with the literal intact. -/
theorem C5_strings_never_split (c1 c2 c3 : List Char)
    (h1 : ∀ ch ∈ c1, ch ≠ '\'' ∧ ch ≠ '\\')
    (h2 : ∀ ch ∈ c2, ch ≠ '"' ∧ ch ≠ '\\')
    (h3 : ∀ ch ∈ c3, ch ≠ '$' ∧ ch ≠ '\\') :
    CQLSplitter.split (String.mk ("CREATE TABLE ".data ++ '\'' :: c1 ++ ['\'', ';'])) =
      [String.mk ("CREATE TABLE ".data ++ '\'' :: c1 ++ ['\''])] ∧
    CQLSplitter.split (String.mk ("CREATE TABLE ".data ++ '"' :: c2 ++ ['"', ';'])) =
      [String.mk ("CREATE TABLE ".data ++ '"' :: c2 ++ ['"'])] ∧
    CQLSplitter.split (String.mk ("CREATE TABLE ".data ++ '$' :: '$' :: c3 ++ ['$', '$', ';'])) =
      [String.mk ("CREATE TABLE ".data ++ '$' :: '$' :: c3 ++ ['$', '$'])] := by
  refine ⟨?_, ?_, ?_⟩
  · show (splitLoop (scanTokens ("CREATE TABLE ".data ++ '\'' :: (c1 ++ ['\'', ';'])))
        [] []).map (fun l => String.mk l) = _
    rw [scanTokensHeader '\'' (c1 ++ ['\'', ';']) (by decide)]
    rw [scanTokens_cons]
    have hq : nextToken '\'' (c1 ++ ['\'', ';']) =
        (Tok.str ('\'' :: (c1 ++ ['\''])), [';']) := by
      have hsb := strBody_closes '\'' c1 h1 [';']
      unfold nextToken
      rw [if_neg (fun hcon => by
            rcases hcon with ⟨h, _⟩ | ⟨h, _⟩ <;> exact absurd h (by decide))]
      rw [if_neg (fun hcon => absurd hcon.1 (by decide))]
      rw [if_neg (by decide)]
      rw [if_pos rfl]
      rw [hsb]
    rw [show (nextToken '\'' (c1 ++ ['\'', ';'])).1 =
          Tok.str ('\'' :: (c1 ++ ['\''])) from by rw [hq]]
    rw [show (nextToken '\'' (c1 ++ ['\'', ';'])).2 = [';'] from by rw [hq]]
    rw [show scanTokens [';'] = [Tok.semicolon] from rfl]
    exact split_ct_token ('\'' :: (c1 ++ ['\''])) ('\'' :: c1) '\'' (by simp) (by decide)
  · show (splitLoop (scanTokens ("CREATE TABLE ".data ++ '"' :: (c2 ++ ['"', ';'])))
        [] []).map (fun l => String.mk l) = _
    rw [scanTokensHeader '"' (c2 ++ ['"', ';']) (by decide)]
    rw [scanTokens_cons]
    have hq : nextToken '"' (c2 ++ ['"', ';']) =
        (Tok.str ('"' :: (c2 ++ ['"'])), [';']) := by
      have hsb := strBody_closes '"' c2 h2 [';']
      unfold nextToken
      rw [if_neg (fun hcon => by
            rcases hcon with ⟨h, _⟩ | ⟨h, _⟩ <;> exact absurd h (by decide))]
      rw [if_neg (fun hcon => absurd hcon.1 (by decide))]
      rw [if_pos rfl]
      rw [hsb]
    rw [show (nextToken '"' (c2 ++ ['"', ';'])).1 =
          Tok.str ('"' :: (c2 ++ ['"'])) from by rw [hq]]
    rw [show (nextToken '"' (c2 ++ ['"', ';'])).2 = [';'] from by rw [hq]]
    rw [show scanTokens [';'] = [Tok.semicolon] from rfl]
    exact split_ct_token ('"' :: (c2 ++ ['"'])) ('"' :: c2) '"' (by simp) (by decide)
  · show (splitLoop (scanTokens ("CREATE TABLE ".data ++
        '$' :: ('$' :: c3 ++ ['$', '$', ';']))) [] []).map (fun l => String.mk l) = _
    rw [scanTokensHeader '$' ('$' :: c3 ++ ['$', '$', ';']) (by decide)]
    rw [scanTokens_cons]
    have hq : nextToken '$' ('$' :: c3 ++ ['$', '$', ';']) =
        (Tok.str ('$' :: '$' :: (c3 ++ ['$', '$'])), [';']) := by
      have hdb := dollarBody_closes c3 h3 [';']
      unfold nextToken
      rw [if_neg (fun hcon => by
            rcases hcon with ⟨h, _⟩ | ⟨h, _⟩ <;> exact absurd h (by decide))]
      rw [if_neg (fun hcon => absurd hcon.1 (by decide))]
      rw [if_neg (by decide)]
      rw [if_neg (by decide)]
      rw [if_pos ⟨rfl, rfl⟩]
      rw [show dollarBody ('$' :: c3 ++ ['$', '$', ';']).tail =
            some (c3 ++ ['$', '$'], [';']) from hdb]
    rw [show (nextToken '$' ('$' :: c3 ++ ['$', '$', ';'])).1 =
          Tok.str ('$' :: '$' :: (c3 ++ ['$', '$'])) from by rw [hq]]
    rw [show (nextToken '$' ('$' :: c3 ++ ['$', '$', ';'])).2 = [';'] from by rw [hq]]
    rw [show scanTokens [';'] = [Tok.semicolon] from rfl]
    exact split_ct_token ('$' :: '$' :: (c3 ++ ['$', '$']))
      ('$' :: '$' :: (c3 ++ ['$'])) '$' (by simp) (by decide)

/-- C5 witness: the spec's own example, `CREATE TABLE 'hello;';`. -/
theorem C5_strings_never_split_witness :
    (∀ ch ∈ "hello;".data, ch ≠ '\'' ∧ ch ≠ '\\') ∧
    CQLSplitter.split "CREATE TABLE 'hello;';" = ["CREATE TABLE 'hello;'"] := by
  refine ⟨by decide, ?_⟩
  have h := (C5_strings_never_split "hello;".data [] []
      (by decide) (by decide) (by decide)).1
  exact h

lemma spaces_run (tail : List Char) (c : Char) (hc : isPySpace c = false)
    (htl : tail.head? = some c) :
    ∀ m : Nat, (List.replicate m ' ' ++ tail).takeWhile isPySpace = List.replicate m ' ' ∧
      (List.replicate m ' ' ++ tail).dropWhile isPySpace = tail := by
  intro m
  induction m with
  | zero =>
      simp only [List.replicate, List.nil_append]
      cases tail with
      | nil => simp at htl
      | cons x xs =>
          simp at htl
          subst htl
          rw [List.takeWhile_cons, List.dropWhile_cons, hc]
          simp
  | succ m ih =>
      simp only [List.replicate, List.cons_append]
      rw [List.takeWhile_cons, List.dropWhile_cons]
      simp only [show isPySpace ' ' = true from rfl]
      simp [ih]

/-- C8 counterexample: a block comment between two whitespace runs appends
three separate single spaces to the buffer, and `str.strip()` only trims the
ends — the statement keeps the internal run of three spaces, so the claimed
collapse of mixed whitespace/comment runs to a single space is false. -/
theorem C8_counterexample :
    CQLSplitter.split "a /*c*/ b;" = ["a   b"] ∧ ("a   b" : String) ≠ "a b" := by
  exact ⟨by decide, by decide⟩

/-- C8 (amended): each block comment and each maximal run of pure whitespace
is reduced to a single space, and statements are trimmed at both ends; but
adjacent whitespace and block-comment tokens each contribute their own
space, so a whitespace/comment/whitespace run becomes three spaces, not
one. -/
theorem C8_amended_spaces (body : List Char) (hne : body ≠ []) (hstar : '*' ∉ body)
    (n : Nat) (hn : 0 < n) :
    CQLSplitter.split (String.mk
        ('a' :: ' ' :: '/' :: '*' :: body ++ '*' :: '/' :: ' ' :: 'b' :: [';'])) =
      ["a   b"] ∧
    CQLSplitter.split (String.mk ('a' :: (List.replicate n ' ' ++ ['b', ';']))) =
      ["a b"] := by
  constructor
  · show (splitLoop (scanTokens
        ('a' :: (' ' :: ('/' :: ('*' :: (body ++ ['*', '/', ' ', 'b', ';']))))))
        [] []).map (fun l => String.mk l) = _
    rw [scanTokens_cons]
    rw [show (nextToken 'a' (' ' :: ('/' :: ('*' :: (body ++ ['*', '/', ' ', 'b', ';']))))).1 =
          Tok.other 'a' from rfl]
    rw [show (nextToken 'a' (' ' :: ('/' :: ('*' :: (body ++ ['*', '/', ' ', 'b', ';']))))).2 =
          ' ' :: ('/' :: ('*' :: (body ++ ['*', '/', ' ', 'b', ';']))) from rfl]
    rw [scanTokens_cons]
    rw [show (nextToken ' ' ('/' :: ('*' :: (body ++ ['*', '/', ' ', 'b', ';'])))).1 =
          Tok.whitespace [' '] from rfl]
    rw [show (nextToken ' ' ('/' :: ('*' :: (body ++ ['*', '/', ' ', 'b', ';'])))).2 =
          '/' :: ('*' :: (body ++ ['*', '/', ' ', 'b', ';'])) from rfl]
    rw [scanTokens_cons]
    have hblk : nextToken '/' ('*' :: (body ++ ['*', '/', ' ', 'b', ';'])) =
        (Tok.blockComment ('/' :: '*' :: body), [' ', 'b', ';']) := by
      have hbb := blockBody_closes body hne hstar [' ', 'b', ';']
      unfold nextToken
      rw [if_neg (fun hcon => by
            rcases hcon with ⟨h, _⟩ | ⟨_, h⟩
            · exact absurd h (by decide)
            · simp at h)]
      rw [if_pos ⟨rfl, rfl⟩]
      rw [show blockBody ('*' :: (body ++ ['*', '/', ' ', 'b', ';'])).tail =
            some (body, [' ', 'b', ';']) from hbb]
    rw [show (nextToken '/' ('*' :: (body ++ ['*', '/', ' ', 'b', ';']))).1 =
          Tok.blockComment ('/' :: '*' :: body) from by rw [hblk]]
    rw [show (nextToken '/' ('*' :: (body ++ ['*', '/', ' ', 'b', ';']))).2 =
          [' ', 'b', ';'] from by rw [hblk]]
    rw [show scanTokens [' ', 'b', ';'] =
          [Tok.whitespace [' '], Tok.other 'b', Tok.semicolon] from rfl]
    simp only [splitLoop]
    rw [show pyStrip ([] ++ ['a'] ++ [' '] ++ [' '] ++ [' '] ++ ['b']) =
          ['a', ' ', ' ', ' ', 'b'] from by decide]
    rw [show pyStrip ([] : List Char) = [] from rfl]
    simp
  · show (splitLoop (scanTokens ('a' :: (List.replicate n ' ' ++ ['b', ';'])))
        [] []).map (fun l => String.mk l) = _
    rw [scanTokens_cons]
    rw [show (nextToken 'a' (List.replicate n ' ' ++ ['b', ';'])) =
          (Tok.other 'a', List.replicate n ' ' ++ ['b', ';'])
        from nextToken_plain 'a' _ (by decide)]
    cases n with
    | zero => exact absurd hn (by omega)
    | succ m =>
        have hrun := spaces_run ['b', ';'] 'b' (by decide) rfl m
        rw [show (List.replicate (m + 1) ' ' ++ ['b', ';'] : List Char) =
              ' ' :: (List.replicate m ' ' ++ ['b', ';']) from by
            simp [List.replicate]]
        rw [scanTokens_cons]
        have hws : nextToken ' ' (List.replicate m ' ' ++ ['b', ';']) =
            (Tok.whitespace (' ' :: List.replicate m ' '), ['b', ';']) := by
          unfold nextToken
          rw [if_neg (fun hcon => by
                rcases hcon with ⟨h, _⟩ | ⟨h, _⟩ <;> exact absurd h (by decide))]
          rw [if_neg (fun hcon => absurd hcon.1 (by decide))]
          rw [if_neg (by decide), if_neg (by decide)]
          rw [if_neg (fun hcon => absurd hcon.1 (by decide))]
          rw [if_neg (by decide)]
          rw [if_pos (by decide)]
          rw [hrun.1, hrun.2]
        rw [show (nextToken ' ' (List.replicate m ' ' ++ ['b', ';'])).1 =
              Tok.whitespace (' ' :: List.replicate m ' ') from by rw [hws]]
        rw [show (nextToken ' ' (List.replicate m ' ' ++ ['b', ';'])).2 =
              ['b', ';'] from by rw [hws]]
        rw [show scanTokens ['b', ';'] = [Tok.other 'b', Tok.semicolon] from rfl]
        simp only [splitLoop]
        rw [show pyStrip ([] ++ ['a'] ++ [' '] ++ ['b']) = ['a', ' ', 'b'] from by decide]
        rw [show pyStrip ([] : List Char) = [] from rfl]
        simp

/-- C8 amended witness: the concrete inputs `a /*cc*/ b;` and `a  b;`. -/
theorem C8_amended_spaces_witness :
    (['c', 'c'] : List Char) ≠ [] ∧ '*' ∉ (['c', 'c'] : List Char) ∧ 0 < 2 ∧
    CQLSplitter.split (String.mk
        ('a' :: ' ' :: '/' :: '*' :: ['c', 'c'] ++ '*' :: '/' :: ' ' :: 'b' :: [';'])) =
      ["a   b"] ∧
    CQLSplitter.split (String.mk ('a' :: (List.replicate 2 ' ' ++ ['b', ';']))) =
      ["a b"] := by
  have h := C8_amended_spaces ['c', 'c'] (by decide) (by decide) 2 (by decide)
  exact ⟨by decide, by decide, by decide, h.1, h.2⟩

/-- C9: a final statement with no terminating semicolon is still emitted as
the last statement (trimmed), and a script of only whitespace, only a line
comment, or nothing at all yields the empty sequence. -/
theorem C9_trailing_and_empty (l1 l2 w body : List Char)
    (h1 : ∀ ch ∈ l1, plainChar ch = true)
    (h2 : ∀ ch ∈ l2, plainChar ch = true) (h2ne : l2 ≠ [])
    (hw : ∀ ch ∈ w, isPySpace ch = true)
    (hb : ∀ ch ∈ body, ch ≠ '\n') :
    CQLSplitter.split (String.mk (l1 ++ ';' :: l2)) =
      (if l1.isEmpty then [] else [String.mk l1]) ++ [String.mk l2] ∧
    CQLSplitter.split (String.mk w) = [] ∧
    CQLSplitter.split (String.mk ('-' :: ('-' :: body))) = [] := by
  refine ⟨?_, ?_, ?_⟩
  · show (splitLoop (scanTokens (l1 ++ ';' :: l2)) [] []).map (fun l => String.mk l) = _
    rw [scanTokens_plain_append l1 h1]
    rw [scanTokens_cons]
    rw [show (nextToken ';' l2).1 = Tok.semicolon from rfl]
    rw [show (nextToken ';' l2).2 = l2 from rfl]
    have hl2 : scanTokens l2 = l2.map Tok.other ++ [] := by
      have h := scanTokens_plain_append l2 h2 []
      rw [scanTokens_nil] at h
      rw [List.append_nil] at h
      exact h
    rw [hl2]
    rw [splitLoop_others l1 _ [] []]
    simp only [splitLoop]
    rw [show ([] : List Char) ++ l1 = l1 from List.nil_append l1]
    rw [pyStrip_no_space l1 (fun ch hch => plain_not_space ch (h1 ch hch))]
    rw [splitLoop_others l2 [] [] _]
    simp only [splitLoop]
    rw [show ([] : List Char) ++ l2 = l2 from List.nil_append l2]
    rw [pyStrip_no_space l2 (fun ch hch => plain_not_space ch (h2 ch hch))]
    have hl2e : l2.isEmpty = false := by
      cases l2
      · exact absurd rfl h2ne
      · rfl
    rw [hl2e]
    by_cases hl1e : l1.isEmpty = true <;> simp [hl1e]
  · cases w with
    | nil => rfl
    | cons c ws =>
        show (splitLoop (scanTokens (c :: ws)) [] []).map (fun l => String.mk l) = _
        rw [scanTokens_cons]
        have hc : isPySpace c = true := hw c (by simp)
        have hnt : nextToken c ws =
            (Tok.whitespace (c :: ws.takeWhile isPySpace), ws.dropWhile isPySpace) := by
          have hc1 : c ≠ '-' := fun hEq => by subst hEq; exact absurd hc (by decide)
          have hc2 : c ≠ '/' := fun hEq => by subst hEq; exact absurd hc (by decide)
          have hc3 : c ≠ '"' := fun hEq => by subst hEq; exact absurd hc (by decide)
          have hc4 : c ≠ '\'' := fun hEq => by subst hEq; exact absurd hc (by decide)
          have hc5 : c ≠ '$' := fun hEq => by subst hEq; exact absurd hc (by decide)
          have hc6 : c ≠ ';' := fun hEq => by subst hEq; exact absurd hc (by decide)
          unfold nextToken
          rw [if_neg (fun hcon => by
                rcases hcon with ⟨h, _⟩ | ⟨h, _⟩
                · exact hc1 h
                · exact hc2 h)]
          rw [if_neg (fun hcon => hc2 hcon.1)]
          rw [if_neg hc3, if_neg hc4]
          rw [if_neg (fun hcon => hc5 hcon.1)]
          rw [if_neg hc6]
          rw [if_pos hc]
        rw [show (nextToken c ws).1 =
              Tok.whitespace (c :: ws.takeWhile isPySpace) from by rw [hnt]]
        rw [show (nextToken c ws).2 = ws.dropWhile isPySpace from by rw [hnt]]
        have hdw : ws.dropWhile isPySpace = [] := by
          rw [List.dropWhile_eq_nil_iff]
          intro x hx
          exact hw x (by simp [hx])
        rw [hdw]
        rw [show scanTokens ([] : List Char) = [] from rfl]
        simp only [splitLoop]
        rw [show pyStrip ([] ++ [' ']) = [] from by decide]
        simp
  · show (splitLoop (scanTokens ('-' :: ('-' :: body))) [] []).map (fun l => String.mk l) = _
    rw [scanTokens_cons]
    have hnt : nextToken '-' ('-' :: body) =
        (Tok.lineComment ('-' :: ('-' :: body).takeWhile (fun ch => !(ch = '\n'))),
         ('-' :: body).dropWhile (fun ch => !(ch = '\n'))) := by
      unfold nextToken
      rw [if_pos (Or.inl ⟨rfl, rfl⟩)]
    rw [show (nextToken '-' ('-' :: body)).1 =
          Tok.lineComment ('-' :: ('-' :: body).takeWhile (fun ch => !(ch = '\n')))
        from by rw [hnt]]
    rw [show (nextToken '-' ('-' :: body)).2 =
          ('-' :: body).dropWhile (fun ch => !(ch = '\n')) from by rw [hnt]]
    have hdw : ('-' :: body).dropWhile (fun ch => !(ch = '\n')) = [] := by
      rw [List.dropWhile_eq_nil_iff]
      intro x hx
      simp only [List.mem_cons] at hx
      rcases hx with rfl | hxb
      · decide
      · simp [hb x hxb]
    rw [hdw]
    rw [show scanTokens ([] : List Char) = [] from rfl]
    simp [splitLoop, pyStrip]

/-- C9 witness: `ab;cd` (trailing statement without semicolon), a two-space
script, and a line-comment-only script. -/
theorem C9_trailing_and_empty_witness :
    CQLSplitter.split (String.mk ("ab".data ++ ';' :: "cd".data)) = ["ab", "cd"] ∧
    CQLSplitter.split (String.mk [' ', ' ']) = [] ∧
    CQLSplitter.split (String.mk ('-' :: ('-' :: " c".data))) = [] := by
  have h := C9_trailing_and_empty "ab".data "cd".data [' ', ' '] " c".data
      (by decide) (by decide) (by decide) (by decide) (by decide)
  exact ⟨h.1, h.2.1, h.2.2⟩
